import Mathlib

/-!
Verification of the modelforge core primitives: pair enumeration,
cutoff filtering, the cosine cutoff envelope, atom-to-molecule
scatter-add reduction, direction epsilon guards, the angular cosine
guard, the self-energy least-squares regression, and the atomic
self-energy lookup.  Each definition is a shallow embedding of the
corresponding Python function; machine floating-point arithmetic is
idealised as exact rational (ℚ) or real (ℝ) arithmetic.
-/

namespace Modelforge

/-- A position in 3-space (nanometers), one rational per coordinate. -/
abbrev Vec3 : Type := ℚ × ℚ × ℚ

/-- Squared Euclidean distance between two positions.  The Python code
computes `(pair_coordinates[:, 0, :] - pair_coordinates[:, 1, :]).norm(p=2)`
and compares it to `cutoff`; because for `0 ≤ c` we have `‖r‖ ≤ c ↔ ‖r‖² ≤ c²`,
the embedding works with the square, which keeps every test decidable
over ℚ (no square root needed). -/
def dist2 (a b : Vec3) : ℚ :=
  (a.1 - b.1) ^ 2 + (a.2.1 - b.2.1) ^ 2 + (a.2.2 - b.2.2) ^ 2

/-- The full off-diagonal index grid built by `pair_list`
(`src/modelforge/potential/utils.py`) when `only_unique_pairs=False`:
`i_indices = repeat_interleave(arange(n), n-1)` and, for each `i`, the
`j` block `arange(i) ++ arange(i+1, n)`.  Row-major order, as in the
source. -/
def allPairs (n : ℕ) : List (ℕ × ℕ) :=
  (List.range n).flatMap (fun i =>
    (List.range i ++ List.range' (i + 1) (n - (i + 1))).map (fun j => (i, j)))

/-- The upper-triangular index grid built by `pair_list` when
`only_unique_pairs=True`: `torch.triu_indices(n, n, 1)`, i.e. all `(i, j)`
with `i < j < n`, row-major. -/
def triuPairs (n : ℕ) : List (ℕ × ℕ) :=
  (List.range n).flatMap (fun i =>
    (List.range' (i + 1) (n - (i + 1))).map (fun j => (i, j)))

/-- `pair_list` (`src/modelforge/potential/utils.py`): generate the index
grid over the whole batch (upper triangular when `only_unique_pairs`,
full off-diagonal otherwise), then keep the pairs whose two atoms carry
the same subsystem index
(`atomic_subsystem_indices[i_indices] == atomic_subsystem_indices[j_indices]`). -/
def pair_list (atomic_subsystem_indices : List ℕ)
    (only_unique_pairs : Bool) : List (ℕ × ℕ) :=
  (if only_unique_pairs then triuPairs atomic_subsystem_indices.length
   else allPairs atomic_subsystem_indices.length).filter (fun p =>
    atomic_subsystem_indices.getD p.1 0 == atomic_subsystem_indices.getD p.2 0)

/-- `neighbor_list_with_cutoff` (`src/modelforge/potential/utils.py`):
build `pair_list`, compute the distance of each retained pair from the
coordinates, and keep the pairs with `distances <= cutoff`.  The source
compares the Euclidean norm with the cutoff; the embedding uses the
equivalent square comparison (together with `0 ≤ cutoff`, which the
norm comparison implies whenever it succeeds, a norm being nonnegative). -/
def neighbor_list_with_cutoff (coordinates : List Vec3)
    (atomic_subsystem_indices : List ℕ) (cutoff : ℚ)
    (only_unique_pairs : Bool) : List (ℕ × ℕ) :=
  (pair_list atomic_subsystem_indices only_unique_pairs).filter (fun p =>
    decide (0 ≤ cutoff) &&
      decide (dist2 (coordinates.getD p.1 default) (coordinates.getD p.2 default)
        ≤ cutoff ^ 2))

/-- C1: every pair produced by `pair_list` (either mode) or by
`neighbor_list_with_cutoff` (any cutoff) joins two atoms of the same
molecule: `subsystem_indices[i] == subsystem_indices[j]`. -/
theorem pair_enumerator_same_molecule
    (asi : List ℕ) (u : Bool) (pos : List Vec3) (c : ℚ) (i j : ℕ)
    (h : (i, j) ∈ pair_list asi u ∨
         (i, j) ∈ neighbor_list_with_cutoff pos asi c u) :
    asi.getD i 0 = asi.getD j 0 := by
  have hmem : (i, j) ∈ pair_list asi u := by
    rcases h with h | h
    · exact h
    · exact (List.mem_filter.mp h).1
  have := (List.mem_filter.mp hmem).2
  simpa using this

/-- Witness for C1 at a concrete batch of two molecules. -/
theorem pair_enumerator_same_molecule_witness :
    ((0, 1) ∈ pair_list [0, 0, 1] true ∨
      (0, 1) ∈ neighbor_list_with_cutoff [] [0, 0, 1] 0 true) ∧
    List.getD [0, 0, 1] 0 0 = List.getD [0, 0, 1] 1 0 :=
  ⟨Or.inl (by decide),
   pair_enumerator_same_molecule [0, 0, 1] true [] 0 0 1 (Or.inl (by decide))⟩

/-- C2: `neighbor_list_with_cutoff` retains exactly the same-molecule
pairs within the cutoff: a retained pair is a `pair_list` pair with
`d_ij ≤ cutoff` (stated as `d_ij² ≤ cutoff²`), and a `pair_list` pair
that is dropped has `d_ij > cutoff`. -/
theorem neighbor_list_cutoff_exact
    (pos : List Vec3) (asi : List ℕ) (c : ℚ) (u : Bool)
    (hc : 0 ≤ c) (i j : ℕ) :
    ((i, j) ∈ neighbor_list_with_cutoff pos asi c u →
      (i, j) ∈ pair_list asi u ∧
        dist2 (pos.getD i default) (pos.getD j default) ≤ c ^ 2) ∧
    ((i, j) ∈ pair_list asi u ∧
        (i, j) ∉ neighbor_list_with_cutoff pos asi c u →
      c ^ 2 < dist2 (pos.getD i default) (pos.getD j default)) := by
  constructor
  · intro h
    have h' := List.mem_filter.mp h
    refine ⟨h'.1, ?_⟩
    have := h'.2
    simp only [Bool.and_eq_true, decide_eq_true_eq] at this
    exact this.2
  · rintro ⟨hp, hn⟩
    by_contra hlt
    push_neg at hlt
    exact hn (List.mem_filter.mpr ⟨hp, by
      simp only [Bool.and_eq_true, decide_eq_true_eq]
      exact ⟨hc, hlt⟩⟩)

/-- Witness for C2: three atoms of one molecule, cutoff 1; the pair
(0, 2) at squared distance 25 is dropped. -/
theorem neighbor_list_cutoff_exact_witness :
    (0 : ℚ) ≤ 1 ∧
    ((0, 2) ∈ pair_list [0, 0, 0] true ∧
      (0, 2) ∉ neighbor_list_with_cutoff
        [(0, 0, 0), (0, 0, 0), (5, 0, 0)] [0, 0, 0] 1 true →
      (1 : ℚ) ^ 2 < dist2 (List.getD [((0 : ℚ), (0 : ℚ), (0 : ℚ)), (0, 0, 0), (5, 0, 0)] 0 default)
        (List.getD [((0 : ℚ), (0 : ℚ), (0 : ℚ)), (0, 0, 0), (5, 0, 0)] 2 default)) :=
  ⟨by norm_num,
   (neighbor_list_cutoff_exact [(0, 0, 0), (0, 0, 0), (5, 0, 0)] [0, 0, 0] 1 true
     (by norm_num) 0 2).2⟩

/-- Length of a `flatMap` as the sum of the block lengths. -/
lemma length_flatMap_eq_sum {α β : Type} (l : List α) (f : α → List β) :
    (l.flatMap f).length = (l.map fun a => (f a).length).sum := by
  induction l with
  | nil => rfl
  | cons a t ih => simp [List.flatMap_cons, ih]

/-- A list sum over `List.range` is the corresponding `Finset.range` sum. -/
lemma sum_map_range_eq (g : ℕ → ℕ) (n : ℕ) :
    ((List.range n).map g).sum = ∑ i ∈ Finset.range n, g i := by
  induction n with
  | zero => rfl
  | succ n ih => rw [List.range_succ]; simp [ih, Finset.sum_range_succ]

/-- Membership in the full off-diagonal grid. -/
lemma mem_allPairs {n i j : ℕ} : (i, j) ∈ allPairs n ↔ i < n ∧ j < n ∧ i ≠ j := by
  constructor
  · intro h
    simp only [allPairs, List.mem_flatMap, List.mem_map, List.mem_append,
      List.mem_range, List.mem_range'_1] at h
    obtain ⟨a, ha, b, hb, heq⟩ := h
    cases heq
    omega
  · rintro ⟨hi, hj, hne⟩
    simp only [allPairs, List.mem_flatMap, List.mem_map, List.mem_append,
      List.mem_range, List.mem_range'_1]
    exact ⟨i, hi, j, by omega, rfl⟩

/-- Membership in the strict upper-triangular grid. -/
lemma mem_triuPairs {n i j : ℕ} : (i, j) ∈ triuPairs n ↔ i < j ∧ j < n := by
  constructor
  · intro h
    simp only [triuPairs, List.mem_flatMap, List.mem_map, List.mem_range,
      List.mem_range'_1] at h
    obtain ⟨a, ha, b, hb, heq⟩ := h
    cases heq
    omega
  · rintro ⟨hij, hj⟩
    simp only [triuPairs, List.mem_flatMap, List.mem_map, List.mem_range,
      List.mem_range'_1]
    exact ⟨i, by omega, j, by omega, rfl⟩

lemma length_allPairs (n : ℕ) : (allPairs n).length = n * (n - 1) := by
  rw [allPairs, length_flatMap_eq_sum]
  have hmap : ((List.range n).map fun i =>
      (((List.range i ++ List.range' (i + 1) (n - (i + 1))).map
        fun j => ((i, j) : ℕ × ℕ)).length)).sum
      = ∑ i ∈ Finset.range n, (i + (n - (i + 1))) := by
    rw [← sum_map_range_eq]
    congr 1
    apply List.map_congr_left
    intro i _
    simp
  rw [hmap]
  rw [Finset.sum_congr rfl (fun i hi => by
    have : i < n := Finset.mem_range.mp hi
    omega : ∀ i ∈ Finset.range n, i + (n - (i + 1)) = n - 1)]
  simp [Finset.sum_const, mul_comm]

lemma length_triuPairs (n : ℕ) : (triuPairs n).length = n * (n - 1) / 2 := by
  rw [triuPairs, length_flatMap_eq_sum]
  have hmap : ((List.range n).map fun i =>
      (((List.range' (i + 1) (n - (i + 1))).map fun j => ((i, j) : ℕ × ℕ)).length)).sum
      = ∑ i ∈ Finset.range n, (n - 1 - i) := by
    rw [← sum_map_range_eq]
    congr 1
    apply List.map_congr_left
    intro i _
    simp
    omega
  rw [hmap, Finset.sum_range_reflect (fun i => i) n]
  simpa using Finset.sum_range_id n

/-- `getD` on a constant-zero list is always zero. -/
lemma getD_replicate_zero (n i : ℕ) : (List.replicate n 0).getD i 0 = 0 := by
  induction n generalizing i with
  | zero => cases i <;> rfl
  | succ n ih => cases i with
    | zero => rfl
    | succ i => exact ih i

/-- On a single-molecule batch the same-molecule filter keeps every
candidate pair. -/
lemma pair_list_replicate (n : ℕ) (u : Bool) :
    pair_list (List.replicate n 0) u = (if u then triuPairs n else allPairs n) := by
  rw [pair_list, List.length_replicate]
  apply List.filter_eq_self.mpr
  intro p _
  simp [getD_replicate_zero]

/-- C4: on one molecule of `n ≥ 2` atoms, UNIQUE mode returns exactly
`n*(n-1)/2` pairs, each with `i < j`; ALL mode returns exactly `n*(n-1)`
pairs and contains both `(i, j)` and `(j, i)` for every `i ≠ j`. -/
theorem pair_list_single_molecule_counts (n : ℕ) (_h : 2 ≤ n) :
    (pair_list (List.replicate n 0) true).length = n * (n - 1) / 2 ∧
    (∀ p ∈ pair_list (List.replicate n 0) true, p.1 < p.2) ∧
    (pair_list (List.replicate n 0) false).length = n * (n - 1) ∧
    (∀ i j, i < n → j < n → i ≠ j →
      (i, j) ∈ pair_list (List.replicate n 0) false ∧
      (j, i) ∈ pair_list (List.replicate n 0) false) := by
  refine ⟨?_, ?_, ?_, ?_⟩
  · rw [pair_list_replicate]; simpa using length_triuPairs n
  · intro p hp
    rw [pair_list_replicate] at hp
    simp only [if_pos] at hp
    obtain ⟨i, j⟩ := p
    exact (mem_triuPairs.mp hp).1
  · rw [pair_list_replicate]; simpa using length_allPairs n
  · intro i j hi hj hne
    rw [pair_list_replicate]
    simp only [if_neg Bool.false_ne_true]
    exact ⟨mem_allPairs.mpr ⟨hi, hj, hne⟩, mem_allPairs.mpr ⟨hj, hi, hne.symm⟩⟩

/-- Witness for C4 at the methane scenario: `n = 5`, giving 10 unique
pairs and 20 all-mode pairs. -/
theorem pair_list_single_molecule_counts_witness :
    2 ≤ 5 ∧
    ((pair_list (List.replicate 5 0) true).length = 5 * (5 - 1) / 2 ∧
    (∀ p ∈ pair_list (List.replicate 5 0) true, p.1 < p.2) ∧
    (pair_list (List.replicate 5 0) false).length = 5 * (5 - 1) ∧
    (∀ i j, i < 5 → j < 5 → i ≠ j →
      (i, j) ∈ pair_list (List.replicate 5 0) false ∧
      (j, i) ∈ pair_list (List.replicate 5 0) false)) :=
  ⟨by decide, pair_list_single_molecule_counts 5 (by decide)⟩

/-- `CosineCutoff.forward` (`src/modelforge/potential/utils.py`):
`input_cut = 0.5 * (cos(d_ij * pi / cutoff) + 1.0)` followed by
`input_cut *= (d_ij < cutoff).float()`.  The boolean mask becomes an
`if`-indicator. -/
noncomputable def CosineCutoff.forward (cutoff d : ℝ) : ℝ :=
  (0.5 * (Real.cos (d * Real.pi / cutoff) + 1)) * (if d < cutoff then 1 else 0)

/-- The unmasked cosine term of the envelope; an upper bound used for the
continuity argument. -/
noncomputable def cosineEnvelope (cutoff d : ℝ) : ℝ :=
  0.5 * (Real.cos (d * Real.pi / cutoff) + 1)

lemma cosineEnvelope_nonneg (c d : ℝ) : 0 ≤ cosineEnvelope c d := by
  have := Real.neg_one_le_cos (d * Real.pi / c)
  unfold cosineEnvelope
  nlinarith

lemma cosineCutoff_le_envelope (c d : ℝ) :
    CosineCutoff.forward c d ≤ cosineEnvelope c d := by
  unfold CosineCutoff.forward cosineEnvelope
  by_cases h : d < c
  · simp [h]
  · simpa [h] using cosineEnvelope_nonneg c d

lemma cosineCutoff_nonneg (c d : ℝ) : 0 ≤ CosineCutoff.forward c d := by
  unfold CosineCutoff.forward
  by_cases h : d < c
  · simpa [h] using cosineEnvelope_nonneg c d
  · simp [h]

lemma cosineEnvelope_continuous (c : ℝ) :
    Continuous (cosineEnvelope c) := by
  unfold cosineEnvelope
  fun_prop

/-- C3: the cutoff envelope equals `0.5*(cos(π·d/c)+1)` below the cutoff,
is exactly `0` for every `d ≥ c`, and its value is continuous at `d = c`. -/
theorem cosine_cutoff_spec (c : ℝ) (hc : 0 < c) :
    (∀ d, d < c → CosineCutoff.forward c d = 0.5 * (Real.cos (Real.pi * d / c) + 1)) ∧
    (∀ d, c ≤ d → CosineCutoff.forward c d = 0) ∧
    ContinuousAt (CosineCutoff.forward c) c := by
  refine ⟨?_, ?_, ?_⟩
  · intro d hd
    unfold CosineCutoff.forward
    rw [if_pos hd, mul_one, mul_comm d Real.pi]
  · intro d hd
    unfold CosineCutoff.forward
    rw [if_neg (not_lt.mpr hd), mul_zero]
  · have hval : CosineCutoff.forward c c = 0 := by
      unfold CosineCutoff.forward
      rw [if_neg (lt_irrefl c), mul_zero]
    have henv : cosineEnvelope c c = 0 := by
      unfold cosineEnvelope
      rw [mul_comm c Real.pi, mul_div_assoc, div_self (ne_of_gt hc), mul_one,
        Real.cos_pi]
      ring
    have htend : Filter.Tendsto (CosineCutoff.forward c) (nhds c) (nhds 0) := by
      apply tendsto_of_tendsto_of_tendsto_of_le_of_le
        (tendsto_const_nhds : Filter.Tendsto (fun _ : ℝ => (0 : ℝ)) (nhds c) (nhds 0))
        (henv ▸ ((cosineEnvelope_continuous c).tendsto c))
      · exact fun d => cosineCutoff_nonneg c d
      · exact fun d => cosineCutoff_le_envelope c d
    unfold ContinuousAt
    rw [hval]
    exact htend

/-- Witness for C3 at cutoff `1`. -/
theorem cosine_cutoff_spec_witness :
    (0 : ℝ) < 1 ∧
    ((∀ d, d < (1 : ℝ) →
        CosineCutoff.forward 1 d = 0.5 * (Real.cos (Real.pi * d / 1) + 1)) ∧
    (∀ d, (1 : ℝ) ≤ d → CosineCutoff.forward 1 d = 0) ∧
    ContinuousAt (CosineCutoff.forward 1) 1) :=
  ⟨by norm_num, cosine_cutoff_spec 1 (by norm_num)⟩

/-- Sequential kernel of `torch.Tensor.scatter_add` along dimension 0:
each source value `v` is added into the accumulator slot named by the
matching index; an index outside the accumulator raises (torch:
"index out of bounds"), as does an index/src shape mismatch. -/
def scatterAddGo (size : ℕ) : List ℕ → List ℚ → List ℚ → Except String (List ℚ)
  | [], [], acc => .ok acc
  | i :: is, v :: vs, acc =>
      if i < size then scatterAddGo size is vs (acc.set i (acc.getD i 0 + v))
      else .error "index out of bounds"
  | _, _, _ => .error "shape mismatch between index and src"

/-- `zeros(size).scatter_add(0, index, src)`. -/
def scatter_add (size : ℕ) (index : List ℕ) (src : List ℚ) :
    Except String (List ℚ) :=
  scatterAddGo size index src (List.replicate size 0)

/-- `FromAtomToMoleculeReduction.forward`
(`src/modelforge/potential/processing.py`): allocate
`zeros(len(atomic_subsystem_indices.unique()))` (the number of distinct
subsystem indices, i.e. the length of the deduplicated index list) and
scatter-add the per-atom values into it. -/
def FromAtomToMoleculeReduction.forward (x : List ℚ)
    (atomic_subsystem_indices : List ℕ) : Except String (List ℚ) :=
  scatter_add atomic_subsystem_indices.dedup.length atomic_subsystem_indices x

/-- Setting slot `i` to its old value plus `v` raises the list sum by `v`. -/
lemma sum_set_getD_add (l : List ℚ) (i : ℕ) (v : ℚ) (hi : i < l.length) :
    (l.set i (l.getD i 0 + v)).sum = l.sum + v := by
  induction l generalizing i with
  | nil => simp at hi
  | cons a t ih =>
    cases i with
    | zero => simp [List.set, List.getD]; ring
    | succ i =>
      have hi' : i < t.length := by simpa using hi
      simp only [List.set, List.getD_cons_succ, List.sum_cons, ih i hi']
      ring

/-- In-bounds scatter succeeds, preserves the accumulator length, and
adds exactly the source total to the accumulator total. -/
lemma scatterAddGo_ok (size : ℕ) (is : List ℕ) (vs acc : List ℚ)
    (hlen : is.length = vs.length) (hbound : ∀ i ∈ is, i < size)
    (hacc : acc.length = size) :
    ∃ r, scatterAddGo size is vs acc = .ok r ∧ r.length = size ∧
      r.sum = acc.sum + vs.sum := by
  induction is generalizing vs acc with
  | nil =>
    cases vs with
    | nil => exact ⟨acc, rfl, hacc, by simp⟩
    | cons v vs => simp at hlen
  | cons i is ih =>
    cases vs with
    | nil => simp at hlen
    | cons v vs =>
      have hi : i < size := hbound i (List.mem_cons_self i is)
      have hi' : i < acc.length := hacc ▸ hi
      have hstep : scatterAddGo size (i :: is) (v :: vs) acc =
          scatterAddGo size is vs (acc.set i (acc.getD i 0 + v)) := by
        simp [scatterAddGo, hi]
      obtain ⟨r, hr, hrlen, hrsum⟩ := ih vs (acc.set i (acc.getD i 0 + v))
        (by simpa using hlen)
        (fun j hj => hbound j (List.mem_cons_of_mem i hj))
        (by simpa using hacc)
      refine ⟨r, hstep ▸ hr, hrlen, ?_⟩
      rw [hrsum, sum_set_getD_add acc i v hi']
      simp [List.sum_cons]
      ring

/-- An out-of-bounds index anywhere in the (equal-length) index list
makes the scatter raise. -/
lemma scatterAddGo_err (size : ℕ) (is : List ℕ) (vs acc : List ℚ)
    (hlen : is.length = vs.length) (hbad : ∃ i ∈ is, size ≤ i) :
    ∃ msg, scatterAddGo size is vs acc = .error msg := by
  induction is generalizing vs acc with
  | nil => simp at hbad
  | cons i is ih =>
    cases vs with
    | nil => simp at hlen
    | cons v vs =>
      by_cases hi : i < size
      · have hstep : scatterAddGo size (i :: is) (v :: vs) acc =
            scatterAddGo size is vs (acc.set i (acc.getD i 0 + v)) := by
          simp [scatterAddGo, hi]
        obtain ⟨j, hj, hjs⟩ := hbad
        rcases List.mem_cons.mp hj with rfl | hj'
        · omega
        · obtain ⟨msg, hmsg⟩ := ih vs (acc.set i (acc.getD i 0 + v))
            (by simpa using hlen) ⟨j, hj', hjs⟩
          exact ⟨msg, hstep ▸ hmsg⟩
      · exact ⟨"index out of bounds", by simp [scatterAddGo, hi]⟩

/-- C5: on dense zero-based subsystem indices covering `0..M-1`, the
reduction returns a per-molecule list of length `M` and the sum of the
per-molecule outputs equals the sum of the per-atom inputs exactly. -/
theorem reduction_sum_exact (x : List ℚ) (asi : List ℕ) (M : ℕ)
    (hlen : x.length = asi.length)
    (hdense : asi.toFinset = Finset.range M) :
    ∃ r, FromAtomToMoleculeReduction.forward x asi = .ok r ∧
      r.length = M ∧ r.sum = x.sum := by
  have hM : asi.dedup.length = M := by
    rw [← List.card_toFinset, hdense, Finset.card_range]
  have hbound : ∀ i ∈ asi, i < asi.dedup.length := by
    intro i hi
    rw [hM]
    have : i ∈ asi.toFinset := List.mem_toFinset.mpr hi
    rw [hdense] at this
    exact Finset.mem_range.mp this
  obtain ⟨r, hr, hrlen, hrsum⟩ := scatterAddGo_ok asi.dedup.length asi x
    (List.replicate asi.dedup.length 0) hlen.symm hbound (by simp)
  refine ⟨r, hr, hM ▸ hrlen, ?_⟩
  rw [hrsum]
  simp [List.sum_replicate]

/-- Witness for C5: `x = [1, 2, 3]`, two molecules `[0, 0, 1]`. -/
theorem reduction_sum_exact_witness :
    List.length [(1 : ℚ), 2, 3] = List.length [0, 0, 1] ∧
    List.toFinset [0, 0, 1] = Finset.range 2 ∧
    ∃ r, FromAtomToMoleculeReduction.forward [(1 : ℚ), 2, 3] [0, 0, 1] = .ok r ∧
      r.length = 2 ∧ r.sum = List.sum [(1 : ℚ), 2, 3] :=
  ⟨by decide, by decide,
   reduction_sum_exact [(1 : ℚ), 2, 3] [0, 0, 1] 2 (by decide) (by decide)⟩

/-- C8: if the subsystem indices are not a dense zero-based range
(gaps, not starting at zero, or naming a nonexistent molecule slot),
the reduction raises and never returns a per-molecule output. -/
theorem reduction_invalid_indices_error (x : List ℚ) (asi : List ℕ)
    (hlen : x.length = asi.length)
    (hnotdense : asi.toFinset ≠ Finset.range asi.dedup.length) :
    ∃ msg, FromAtomToMoleculeReduction.forward x asi = .error msg := by
  have hcard : asi.toFinset.card = asi.dedup.length := List.card_toFinset asi
  have hbad : ∃ i ∈ asi, asi.dedup.length ≤ i := by
    by_contra hall
    push_neg at hall
    have hsub : asi.toFinset ⊆ Finset.range asi.dedup.length := by
      intro i hi
      exact Finset.mem_range.mpr (hall i (List.mem_toFinset.mp hi))
    have : asi.toFinset = Finset.range asi.dedup.length :=
      Finset.eq_of_subset_of_card_le hsub (by rw [hcard, Finset.card_range])
    exact hnotdense this
  exact scatterAddGo_err asi.dedup.length asi x
    (List.replicate asi.dedup.length 0) hlen.symm hbad

/-- Witness for C8: indices `[0, 2]` (gap at 1) raise. -/
theorem reduction_invalid_indices_error_witness :
    List.length [(1 : ℚ), 2] = List.length [0, 2] ∧
    List.toFinset [0, 2] ≠ Finset.range (List.dedup [0, 2]).length ∧
    ∃ msg, FromAtomToMoleculeReduction.forward [(1 : ℚ), 2] [0, 2] = .error msg :=
  ⟨by decide, by decide,
   reduction_invalid_indices_error [(1 : ℚ), 2] [0, 2] (by decide) (by decide)⟩

/-- `PaiNNRepresentation.forward` (`src/modelforge/potential/painn.py`):
`dir_ij = r_ij / d_ij` — one displacement component divided by the raw
pair distance, with no epsilon added. -/
def painnDir (r d : ℚ) : ℚ := r / d

/-- The denominator of PaiNN's direction quotient, taken as its own
definition so that the zero-distance behaviour can be stated without
appealing to a convention for division by zero. -/
def painnDirDenominator (d : ℚ) : ℚ := d

/-- SAKE interaction (`src/modelforge/potential/sake.py`):
`dir_ij = r_ij / (d_ij.unsqueeze(-1) + self.epsilon)`. -/
def sakeDir (r d ε : ℚ) : ℚ := r / (d + ε)

/-- The denominator of SAKE's direction quotient. -/
def sakeDirDenominator (d ε : ℚ) : ℚ := d + ε

/-- C6 counterexample: at a coincident pair (`d_ij = 0`) PaiNN's
direction denominator is exactly `0`, not `d_ij + ε` for a positive
`ε`; the PaiNN direction is a division by zero, so the claim that every
unit direction in the code is computed as `r_ij / (d_ij + ε)` with
`ε > 0` fails on the PaiNN representation module. -/
theorem painn_direction_no_epsilon_guard :
    painnDirDenominator 0 = 0 ∧ ¬ 0 < painnDirDenominator 0 := by
  refine ⟨rfl, ?_⟩
  rw [painnDirDenominator]
  exact lt_irrefl 0

/-- C6 amended: SAKE's direction is `r_ij / (d_ij + ε)` and its
denominator is strictly positive for every distance `d ≥ 0` whenever
`ε > 0` (finite even for coincident atoms), but PaiNN's direction is
`r_ij / d_ij` with no epsilon, whose denominator vanishes at `d_ij = 0`. -/
theorem direction_epsilon_guard_amended (d ε : ℚ) (hd : 0 ≤ d) (hε : 0 < ε) :
    0 < sakeDirDenominator d ε ∧
    sakeDir 1 d ε = 1 / (d + ε) ∧
    painnDirDenominator 0 = 0 := by
  refine ⟨?_, rfl, rfl⟩
  rw [sakeDirDenominator]
  positivity

/-- Witness for the amended C6 at `d = 0`, `ε = 1`. -/
theorem direction_epsilon_guard_amended_witness :
    (0 : ℚ) ≤ 0 ∧ (0 : ℚ) < 1 ∧
    (0 < sakeDirDenominator 0 1 ∧
      sakeDir 1 0 1 = 1 / (0 + 1) ∧
      painnDirDenominator 0 = 0) :=
  ⟨le_refl 0, by norm_num, direction_epsilon_guard_amended 0 1 (le_refl 0) (by norm_num)⟩

/-- `AngularSymmetryFunction.compute_angular_sub_aev`
(`src/modelforge/potential/utils.py`):
`cos_angles = 0.95 * torch.nn.functional.cosine_similarity(...)` —
the cosine similarity of the two bond vectors scaled by the constant
`0.95` before `acos`.  The embedding takes the cosine-similarity value
as its argument (the norms feeding it are irrational in general). -/
def aniCosAngles (cosSim : ℚ) : ℚ := 0.95 * cosSim

/-- Modelled from the spec: the guard the spec prescribes instead,
`clamp(dot(u_ij, u_ik), -1+δ, 1-δ)`, for comparison with the
source's `aniCosAngles`. -/
def specClampCos (cosSim δ : ℚ) : ℚ := max (-1 + δ) (min (1 - δ) cosSim)

/-- C7 counterexample: for the bond vectors `(3, 4, 0)` and `(5, 0, 0)`
the cosine of the angle is `3/5`, strictly inside the arccos domain,
yet the code turns it into `0.95 * (3/5) = 57/100 ≠ 3/5`; the claimed
clamp (for instance with `δ = 1/100`) would have left it unchanged. -/
theorem angular_cos_guard_counterexample :
    aniCosAngles (3 / 5) = 57 / 100 ∧
    (57 / 100 : ℚ) ≠ 3 / 5 ∧
    specClampCos (3 / 5) (1 / 100) = 3 / 5 := by
  refine ⟨?_, by norm_num, ?_⟩
  · rw [aniCosAngles]; norm_num
  · rw [specClampCos]; norm_num

/-- C7 amended: the featurizer guards `acos` by scaling the cosine
similarity by the constant `0.95` rather than clamping: every cosine
value in `[-1, 1]` is mapped strictly inside `(-1, 1)` (so `acos`
cannot overshoot its domain), but every nonzero cosine value is
changed, including values strictly inside the domain. -/
theorem angular_cos_guard_amended (c : ℚ) (hc : |c| ≤ 1) :
    aniCosAngles c = (19 / 20) * c ∧
    |aniCosAngles c| ≤ 19 / 20 ∧
    (c ≠ 0 → aniCosAngles c ≠ c) := by
  refine ⟨by rw [aniCosAngles]; norm_num, ?_, ?_⟩
  · rw [aniCosAngles, abs_mul]
    have h95 : |(0.95 : ℚ)| = 19 / 20 := by norm_num [abs_of_nonneg]
    rw [h95]
    nlinarith [abs_nonneg c]
  · intro hne heq
    rw [aniCosAngles] at heq
    have : (0.95 : ℚ) * c - c = 0 := by rw [heq]; ring
    have : c * (-1 / 20) = 0 := by linarith [this]
    rcases mul_eq_zero.mp this with h | h
    · exact hne h
    · norm_num at h

/-- Witness for the amended C7 at `c = 3/5`. -/
theorem angular_cos_guard_amended_witness :
    |(3 / 5 : ℚ)| ≤ 1 ∧
    (aniCosAngles (3 / 5) = (19 / 20) * (3 / 5) ∧
      |aniCosAngles (3 / 5)| ≤ 19 / 20 ∧
      ((3 / 5 : ℚ) ≠ 0 → aniCosAngles (3 / 5) ≠ 3 / 5)) :=
  ⟨by rw [abs_le]; constructor <;> norm_num,
   angular_cos_guard_amended (3 / 5) (by rw [abs_le]; constructor <;> norm_num)⟩

/-- A key passed to `AtomicSelfEnergies.__getitem__`: a Python `int`
(atomic number), a `str` (element symbol), or anything else. -/
inductive SelfEnergyKey : Type where
  | intKey (z : ℤ)
  | strKey (s : String)
  | otherKey
deriving DecidableEq

/-- The observable outcome of `AtomicSelfEnergies.__getitem__`: a
returned value (`None` or a float), a raised `KeyError`, or a raised
`TypeError`. -/
inductive GetItemResult : Type where
  | value (v : Option ℚ)
  | keyError
  | typeError
deriving DecidableEq

/-- `AtomicSelfEnergies.__getitem__` (`src/modelforge/potential/processing.py`):
an `int` key is translated through `atomic_number_to_element.get(key)`
(raising `KeyError` when absent) and then looked up with
`self.energies.get(element)` (which returns `None` when absent); a
`str` key raises `KeyError` when not in `energies` and returns the
stored value otherwise; any other key raises `TypeError`.  Python
dictionaries are embedded as association lists with `List.lookup`. -/
def AtomicSelfEnergies.getItem (energies : List (String × ℚ))
    (atomic_number_to_element : List (ℤ × String)) :
    SelfEnergyKey → GetItemResult
  | .intKey z =>
    match atomic_number_to_element.lookup z with
    | none => .keyError
    | some element => .value (energies.lookup element)
  | .strKey s =>
    match energies.lookup s with
    | none => .keyError
    | some v => .value (some v)
  | .otherKey => .typeError

/-- C10: an `int` key present in the number-to-element mapping whose
element has no energy entry yields `None` (no exception); `KeyError` is
raised exactly for an `int` key absent from the mapping or a `str` key
absent from `energies`; every other key raises `TypeError`. -/
theorem atomic_self_energies_getitem_spec (energies : List (String × ℚ))
    (mapping : List (ℤ × String)) :
    (∀ z el, mapping.lookup z = some el → energies.lookup el = none →
      AtomicSelfEnergies.getItem energies mapping (.intKey z) = .value none) ∧
    (∀ k, AtomicSelfEnergies.getItem energies mapping k = .keyError ↔
      ((∃ z, k = .intKey z ∧ mapping.lookup z = none) ∨
       (∃ s, k = .strKey s ∧ energies.lookup s = none))) ∧
    AtomicSelfEnergies.getItem energies mapping .otherKey = .typeError := by
  refine ⟨?_, ?_, rfl⟩
  · intro z el hz hel
    simp [AtomicSelfEnergies.getItem, hz, hel]
  · intro k
    cases k with
    | intKey z =>
      cases hz : mapping.lookup z with
      | none =>
        simp [AtomicSelfEnergies.getItem, hz]
        simpa using hz
      | some el =>
        obtain ⟨l₁, l₂, hm, -⟩ := List.lookup_eq_some_iff.mp hz
        simp [AtomicSelfEnergies.getItem, hz]
        exact ⟨el, by rw [hm]; simp⟩
    | strKey s =>
      cases hs : energies.lookup s with
      | none =>
        simp [AtomicSelfEnergies.getItem, hs]
        simpa using hs
      | some v =>
        obtain ⟨l₁, l₂, hm, -⟩ := List.lookup_eq_some_iff.mp hs
        simp [AtomicSelfEnergies.getItem, hs]
        exact ⟨v, by rw [hm]; simp⟩
    | otherKey => simp [AtomicSelfEnergies.getItem]

/-- Witness for C10: atomic number 6 is mapped to carbon, which has no
energy entry, and the lookup returns `None`. -/
theorem atomic_self_energies_getitem_spec_witness :
    List.lookup (6 : ℤ) [((1 : ℤ), "H"), (6, "C")] = some "C" ∧
    List.lookup "C" [("H", (5 : ℚ))] = none ∧
    AtomicSelfEnergies.getItem [("H", (5 : ℚ))] [((1 : ℤ), "H"), (6, "C")]
      (.intKey 6) = .value none :=
  ⟨by decide, by decide,
   (atomic_self_energies_getitem_spec [("H", (5 : ℚ))] [((1 : ℤ), "H"), (6, "C")]).1
     6 "C" (by decide) (by decide)⟩

/-- `valid_elements_mask = counts.sum(dim=0) > 0`
(`src/modelforge/dataset/utils.py`, `calculate_self_energies`): a
design-matrix column survives exactly when its total occurrence count
over all molecules is positive. -/
def validElementsMask {nmol ncol : ℕ} (counts : Fin nmol → Fin ncol → ℕ)
    (j : Fin ncol) : Bool :=
  decide (0 < ∑ i, counts i j)

/-- The mask keeps exactly the observed columns: a column passes iff
some molecule contains that element at least once, so elements never
observed in the dataset are excluded from the design matrix. -/
lemma validElementsMask_iff_observed {nmol ncol : ℕ}
    (counts : Fin nmol → Fin ncol → ℕ) (j : Fin ncol) :
    validElementsMask counts j = true ↔ ∃ i, 0 < counts i j := by
  rw [validElementsMask, decide_eq_true_iff]
  constructor
  · intro h
    by_contra hall
    push_neg at hall
    have hz : ∑ i, counts i j = 0 :=
      Finset.sum_eq_zero fun i _ => Nat.le_zero.mp (hall i)
    omega
  · rintro ⟨i, hi⟩
    exact Finset.sum_pos' (fun _ _ => Nat.zero_le _) ⟨i, Finset.mem_univ i, hi⟩

/-- The squared residual `‖A·x − y‖²` of a candidate solution. -/
def residualSq {m k : ℕ} (A : Matrix (Fin m) (Fin k) ℚ) (y : Fin m → ℚ)
    (x : Fin k → ℚ) : ℚ :=
  ∑ i, (A.mulVec x i - y i) ^ 2

/-- Modelled from numpy's documented contract for `np.linalg.lstsq`
(called in `calculate_self_energies`): the returned vector minimises
the squared residual of `A·x = y`. -/
def IsLeastSquaresSolution {m k : ℕ} (A : Matrix (Fin m) (Fin k) ℚ)
    (y : Fin m → ℚ) (x : Fin k → ℚ) : Prop :=
  ∀ x', residualSq A y x ≤ residualSq A y x'

/-- When the design matrix has full column rank (`mulVec` injective at
zero) and the energies are an exact linear combination `y = A·x₀`, the
least-squares solution is exactly `x₀`. -/
lemma lstsq_exact_recovery {m k : ℕ} (A : Matrix (Fin m) (Fin k) ℚ)
    (y : Fin m → ℚ) (x₀ x : Fin k → ℚ)
    (hinj : ∀ v, A.mulVec v = 0 → v = 0)
    (hex : y = A.mulVec x₀) (hls : IsLeastSquaresSolution A y x) : x = x₀ := by
  have h0 : residualSq A y x₀ = 0 := by
    rw [residualSq, hex]
    simp
  have hle : residualSq A y x ≤ 0 := h0 ▸ hls x₀
  have hge : (0 : ℚ) ≤ residualSq A y x :=
    Finset.sum_nonneg fun i _ => sq_nonneg _
  have heq : residualSq A y x = 0 := le_antisymm hle hge
  have hAx : A.mulVec x = y := by
    funext i
    have hall := (Finset.sum_eq_zero_iff_of_nonneg
      (fun i _ => sq_nonneg (A.mulVec x i - y i))).mp heq i (Finset.mem_univ i)
    have := (pow_eq_zero_iff two_ne_zero).mp hall
    linarith
  have hz : A.mulVec (x - x₀) = 0 := by
    rw [Matrix.mulVec_sub, hAx, hex]
    simp
  have := hinj (x - x₀) hz
  funext i
  have := congrFun this i
  simp only [Pi.sub_apply, Pi.zero_apply, sub_eq_zero] at this
  exact this

/-- The tail of `calculate_self_energies`
(`src/modelforge/dataset/utils.py`):
`self_energies = {int(idx): energy for idx, energy in
zip(unique_atomic_numbers, least_squares_fit)}`.  The first argument is
the iteration order of the Python set `unique_atomic_numbers`; the
second is the least-squares solution vector, whose entries follow the
design-matrix column order (ascending atomic number, since column `Z-1`
of `counts` holds element `Z` and boolean-mask indexing preserves
column order). -/
def selfEnergiesDict (setIterationOrder : List ℕ) (least_squares_fit : List ℚ) :
    List (ℕ × ℚ) :=
  setIterationOrder.zip least_squares_fit

/-- The per-molecule element-count design matrix for a dataset of one
water (2 H, 1 O) and one hydrogen peroxide (2 H, 2 O) molecule, columns
in ascending atomic number (H, O) as built by the masked `counts`. -/
def waterCounts : Matrix (Fin 2) (Fin 2) ℚ := !![2, 1; 2, 2]

/-- The reference self-energies: hydrogen `1`, oxygen `10` (column
order, ascending atomic number). -/
def waterRef : Fin 2 → ℚ := ![1, 10]

/-- Synthetic energies generated as the exact linear combination
`waterCounts · waterRef`. -/
def waterEnergies : Fin 2 → ℚ := ![12, 22]

lemma waterCounts_injective : ∀ v : Fin 2 → ℚ, waterCounts.mulVec v = 0 → v = 0 := by
  intro v h
  have h0 := congrFun h 0
  have h1 := congrFun h 1
  simp [waterCounts, Matrix.mulVec, Matrix.dotProduct, Fin.sum_univ_two] at h0 h1
  funext i
  fin_cases i
  · show v 0 = 0
    linarith
  · show v 1 = 0
    linarith

lemma waterEnergies_exact : waterEnergies = waterCounts.mulVec waterRef := by
  funext i
  fin_cases i <;>
    simp [waterCounts, waterRef, waterEnergies, Matrix.mulVec, Matrix.dotProduct,
      Fin.sum_univ_two] <;>
    norm_num

/-- C9, evaluated at the failing input: for the water/peroxide dataset
the design matrix has full column rank and the energies are an exact
combination of the reference table, so `np.linalg.lstsq` returns
exactly `waterRef = (1, 10)` in column order (H, O).  But the code zips
that vector with the iteration order of the Python set
`unique_atomic_numbers`, which for `{1, 8}` is `[8, 1]` (CPython hashes
small ints to themselves; 8 lands in slot 0 of the 8-slot table, 1 in
slot 1), so the returned dictionary maps hydrogen (Z = 1) to `10` — the
oxygen reference energy — instead of its own reference energy `1`. -/
theorem self_energies_zip_misaligned (x : Fin 2 → ℚ)
    (hls : IsLeastSquaresSolution waterCounts waterEnergies x) :
    x = waterRef ∧
    selfEnergiesDict [8, 1] [x 0, x 1] = [(8, x 0), (1, x 1)] ∧
    List.lookup 1 (selfEnergiesDict [8, 1] [x 0, x 1]) = some 10 ∧
    waterRef 0 = 1 ∧ (10 : ℚ) ≠ 1 := by
  have hx : x = waterRef :=
    lstsq_exact_recovery waterCounts waterEnergies waterRef x
      waterCounts_injective waterEnergies_exact hls
  subst hx
  refine ⟨rfl, rfl, ?_, rfl, by norm_num⟩
  show List.lookup 1 [(8, waterRef 0), (1, waterRef 1)] = some 10
  simp [waterRef, List.lookup]

/-- Witness for C9's failing-input theorem: `waterRef` itself is a
least-squares solution (its residual is zero). -/
theorem self_energies_zip_misaligned_witness :
    IsLeastSquaresSolution waterCounts waterEnergies waterRef ∧
    (waterRef = waterRef ∧
      selfEnergiesDict [8, 1] [waterRef 0, waterRef 1] =
        [(8, waterRef 0), (1, waterRef 1)] ∧
      List.lookup 1 (selfEnergiesDict [8, 1] [waterRef 0, waterRef 1]) = some 10 ∧
      waterRef 0 = 1 ∧ (10 : ℚ) ≠ 1) := by
  have hls : IsLeastSquaresSolution waterCounts waterEnergies waterRef := by
    intro x'
    have h0 : residualSq waterCounts waterEnergies waterRef = 0 := by
      rw [residualSq, waterEnergies_exact]
      simp
    rw [h0]
    exact Finset.sum_nonneg fun i _ => sq_nonneg _
  exact ⟨hls, self_energies_zip_misaligned waterRef hls⟩

end Modelforge
